import Mathlib

/-!
# Verification of the AIND-Isolation game agent

Shallow embedding of `src/game_agent.py` (the `CustomPlayer` search agent and its
`custom_score` evaluator) and of the output logic of `src/heuristic_search.py`.

Modelling conventions:
* Python floats used as scores are modelled exactly: either `-inf`, `+inf`, or a
  finite value represented as a rational number (`Score` below).
* The external `isolation.Board` capability is opaque in the sources; for the search
  it is modelled as a finitely branching game tree (`GTree`): each node associates
  every legal move of the side to move with the forecasted successor board, so
  `get_legal_moves()` is the list of first components and `forecast_move` is the
  paired subtree.  For the evaluator, which additionally queries win/loss state and
  per-player move lists, the board is modelled by the record of exactly those
  queries (`ScoreBoard`).
* Python exceptions are modelled with `Except`: `Timeout` propagates as `.error`.
* The `time_left` callable is modelled as a function from the number of clock reads
  performed so far to the remaining milliseconds; the timed search functions thread
  the read counter through the computation.
-/

namespace AIndIsolation

/-- A board coordinate move `(row, col)`; the sentinel `(-1, -1)` means "no move". -/
abbrev Move : Type := ℤ × ℤ

/-- A Python float used as a search score: `float("-inf")`, a finite value
(modelled exactly as a rational), or `float("inf")`. -/
inductive Score : Type where
  | negInf : Score
  | fin : ℚ → Score
  | posInf : Score
deriving DecidableEq

namespace Score

/-- Python's strict `<` on score floats: `-inf` below every finite value, `inf` above. -/
def blt : Score → Score → Bool
  | negInf, negInf => false
  | negInf, _ => true
  | fin _, negInf => false
  | fin a, fin b => decide (a < b)
  | fin _, posInf => true
  | posInf, _ => false

/-- Python's non-strict `<=` on score floats. -/
def ble (a b : Score) : Bool := !(blt b a)

end Score

/-- Python's lexicographic `<` on `(row, col)` move tuples. -/
def move_blt (a b : Move) : Bool :=
  decide (a.1 < b.1) || (decide (a.1 = b.1) && decide (a.2 < b.2))

/-- Non-strict version of `move_blt`. -/
def move_ble (a b : Move) : Bool := !(move_blt b a)

/-- Python's lexicographic `<` on `(score, move)` result tuples: compare the score
first, then the move tuple. -/
def tuple_blt (a b : Score × Move) : Bool :=
  Score.blt a.1 b.1 || (decide (a.1 = b.1) && move_blt a.2 b.2)

/-- Non-strict version of `tuple_blt`. -/
def tuple_ble (a b : Score × Move) : Bool := !(tuple_blt b a)

/-- Python's `max` over a list of `(score, move)` tuples: start from the first
element and replace the current maximum only when a later element is strictly
greater, returning the lexicographically greatest tuple.  (Python's `max` raises on
an empty sequence; the `[]` case below is unreachable from `minimax`, which only
selects over non-empty children lists.) -/
def pyMax : List (Score × Move) → Score × Move
  | [] => (Score.negInf, (-1, -1))
  | x :: xs => xs.foldl (fun cur y => if tuple_blt cur y then y else cur) x

/-- Python's `min` over a list of `(score, move)` tuples; dual of `pyMax`. -/
def pyMin : List (Score × Move) → Score × Move
  | [] => (Score.posInf, (-1, -1))
  | x :: xs => xs.foldl (fun cur y => if tuple_blt y cur then y else cur) x

/-- Modelled from the spec: the external `isolation.Board` capability (not part of
the sources), as consumed by the search methods.  A board is a finitely branching
game: each node associates every legal move of the side to move with the board
forecasted by applying that move. -/
inductive GTree : Type where
  | node : List (Move × GTree) → GTree

/-- The move/successor pairs at a node. -/
def GTree.children : GTree → List (Move × GTree)
  | .node cs => cs

/-- `game.get_legal_moves()`: the legal moves of the side to move. -/
def get_legal_moves (g : GTree) : List Move := g.children.map Prod.fst

/-- Modelled from the spec: the external `isolation.Board` capability (not part of
the sources), as consumed by the heuristic evaluator: win/loss predicates, the
per-player legal move lists and the opponent resolution. -/
structure ScoreBoard (P : Type) where
  is_loser : P → Bool
  is_winner : P → Bool
  get_legal_moves : P → List Move
  get_opponent : P → P

/-- `game_agent.custom_score`: `-inf` when `player` has lost, `+inf` when `player`
has won, otherwise `0.77 * my_moves + 0.23 * opp_moves`. -/
def custom_score {P : Type} (game : ScoreBoard P) (player : P) : Score :=
  if game.is_loser player then .negInf
  else if game.is_winner player then .posInf
  else
    let my_moves : ℕ := (game.get_legal_moves player).length
    let opp_moves : ℕ := (game.get_legal_moves (game.get_opponent player)).length
    .fin ((0.77 : ℚ) * my_moves + (0.23 : ℚ) * opp_moves)

/-- Modelled from the spec: `moves_combined` is imported by `heuristic_search.py`
from `game_agent.py`, but its definition is absent from the sources.  The spec
defines the family as: `-inf` if the perspective has lost, `+inf` if it has won,
otherwise `a * |legal_moves(perspective)| + (1 - a) * |legal_moves(opponent)|`;
`moves_combined a` is the evaluator for mixing coefficient `a`. -/
def moves_combined {P : Type} (a : ℚ) (game : ScoreBoard P) (player : P) : Score :=
  if game.is_loser player then .negInf
  else if game.is_winner player then .posInf
  else
    .fin (a * (game.get_legal_moves player).length
      + (1 - a) * (game.get_legal_moves (game.get_opponent player)).length)

/-- `CustomPlayer.__prune__`: decide whether the remaining siblings of the current
branch can be pruned: `(maximizing_player and old_beta <= score) or
(not maximizing_player and old_alpha >= score)`. -/
def __prune__ (old_alpha old_beta score : Score) (maximizing_player : Bool) : Bool :=
  (maximizing_player && Score.ble old_beta score) ||
    (!maximizing_player && Score.ble score old_alpha)

/-- `CustomPlayer.__update_limit__`: update the alpha/beta limits from the score of
a child node: `(score, old_beta)` on a maximizing layer, `(old_alpha, score)` on a
minimizing layer. -/
def __update_limit__ (old_alpha old_beta score : Score) (maximizing_player : Bool) :
    Score × Score :=
  if maximizing_player then (score, old_beta) else (old_alpha, score)

mutual

/-- `CustomPlayer.minimax` (pure part; the per-call clock check is carried by
`minimaxT` below): if there are no legal moves, return `(self.score(game, self),
(-1, -1))`; otherwise build the `children` list of `(score, move)` tuples and
return its Python `max` (maximizing layer) or `min` (minimizing layer). -/
def minimax {P : Type} (scoreFn : GTree → P → Score) (self : P) (game : GTree)
    (depth : ℕ) (maximizing_player : Bool) : Score × Move :=
  match game with
  | .node cs =>
    match cs with
    | [] => (scoreFn (.node cs) self, (-1, -1))
    | c :: cs' =>
      let children := minimax_children scoreFn self (c :: cs') depth maximizing_player
      if maximizing_player then pyMax children else pyMin children

/-- The `children` list built by `minimax`: at `depth == 1`, the heuristic applied
to every forecasted child (`[(self.score(game.forecast_move(m), self), m) for m in
legal_moves]`); otherwise the recursive scores (`[(self.minimax(
game.forecast_move(m), depth-1, not maximizing_player)[0], m) for m in
legal_moves]`). -/
def minimax_children {P : Type} (scoreFn : GTree → P → Score) (self : P)
    (moves : List (Move × GTree)) (depth : ℕ) (maximizing_player : Bool) :
    List (Score × Move) :=
  if depth = 1 then moves.map (fun x => (scoreFn x.2 self, x.1))
  else minimax_rec scoreFn self moves depth maximizing_player

/-- The recursive list comprehension of `minimax` (the `depth != 1` branch of
`minimax_children`), one child at a time. -/
def minimax_rec {P : Type} (scoreFn : GTree → P → Score) (self : P)
    (moves : List (Move × GTree)) (depth : ℕ) (maximizing_player : Bool) :
    List (Score × Move) :=
  match moves with
  | [] => []
  | (m, c) :: rest =>
    ((minimax scoreFn self c (depth - 1) (!maximizing_player)).1, m) ::
      minimax_rec scoreFn self rest depth maximizing_player

end

mutual

/-- `CustomPlayer.alphabeta` (pure part; the per-call clock check is carried by
`alphabetaT` below): if `depth == 0` or there are no legal moves, return
`(self.score(game, self), (-1, -1))`; otherwise run the move loop starting from
`best_score = -inf` (maximizing) or `+inf` (minimizing) and `best_move =
legal_moves[0]`. -/
def alphabeta {P : Type} (scoreFn : GTree → P → Score) (self : P) (game : GTree)
    (depth : ℕ) (alpha beta : Score) (maximizing_player : Bool) : Score × Move :=
  match game with
  | .node cs =>
    if depth = 0 then (scoreFn (.node cs) self, (-1, -1))
    else
      match cs with
      | [] => (scoreFn (.node cs) self, (-1, -1))
      | c :: cs' =>
        ab_loop scoreFn self (c :: cs') depth alpha beta maximizing_player
          (if maximizing_player then Score.negInf else Score.posInf) c.1

/-- The `for move in legal_moves` loop of `alphabeta`: score each child with the
current bounds; when the child's score strictly improves `best_score`, record
`(move, score)`, break if `__prune__` fires, otherwise continue with the bounds
produced by `__update_limit__`. -/
def ab_loop {P : Type} (scoreFn : GTree → P → Score) (self : P)
    (moves : List (Move × GTree)) (depth : ℕ) (alpha beta : Score)
    (maximizing_player : Bool) (best_score : Score) (best_move : Move) :
    Score × Move :=
  match moves with
  | [] => (best_score, best_move)
  | (m, c) :: rest =>
    let s := (alphabeta scoreFn self c (depth - 1) alpha beta (!maximizing_player)).1
    if (maximizing_player && Score.blt best_score s) ||
        (!maximizing_player && Score.blt s best_score) then
      if __prune__ alpha beta s maximizing_player then (s, m)
      else
        let ab := __update_limit__ alpha beta s maximizing_player
        ab_loop scoreFn self rest depth ab.1 ab.2 maximizing_player s m
    else
      ab_loop scoreFn self rest depth alpha beta maximizing_player best_score best_move

end

/-- The `time_left` callable: the remaining milliseconds as a function of how many
clock reads have been performed so far. -/
abbrev Clock := ℕ → ℚ

mutual

/-- `CustomPlayer.minimax` with its clock check: on entry, read the clock (the
natural-number argument counts reads performed so far) and raise `Timeout`
(modelled as `.error ()`) when `self.time_left() < self.TIMER_THRESHOLD`;
otherwise run the body of `minimax`, threading the read counter through the
recursive calls and propagating any `Timeout` raised by them. -/
def minimaxT {P : Type} (time_left : Clock) (TIMER_THRESHOLD : ℚ)
    (scoreFn : GTree → P → Score) (self : P) (game : GTree) (depth : ℕ)
    (maximizing_player : Bool) (n : ℕ) : Except Unit (Score × Move) × ℕ :=
  if time_left n < TIMER_THRESHOLD then (.error (), n + 1)
  else
    match game with
    | .node cs =>
      match cs with
      | [] => (.ok (scoreFn (.node cs) self, (-1, -1)), n + 1)
      | c :: cs' =>
        if depth = 1 then
          (.ok (let children := (c :: cs').map (fun x => (scoreFn x.2 self, x.1))
                if maximizing_player then pyMax children else pyMin children),
           n + 1)
        else
          match minimax_recT time_left TIMER_THRESHOLD scoreFn self (c :: cs')
              depth maximizing_player (n + 1) with
          | (.error e, k) => (.error e, k)
          | (.ok children, k) =>
            (.ok (if maximizing_player then pyMax children else pyMin children), k)

/-- The recursive list comprehension of `minimax`, clock-instrumented: Python
evaluates the comprehension left to right and an exception raised by any element
aborts the whole comprehension, so a `Timeout` from a child propagates
immediately. -/
def minimax_recT {P : Type} (time_left : Clock) (TIMER_THRESHOLD : ℚ)
    (scoreFn : GTree → P → Score) (self : P) (moves : List (Move × GTree))
    (depth : ℕ) (maximizing_player : Bool) (n : ℕ) :
    Except Unit (List (Score × Move)) × ℕ :=
  match moves with
  | [] => (.ok [], n)
  | (m, c) :: rest =>
    match minimaxT time_left TIMER_THRESHOLD scoreFn self c (depth - 1)
        (!maximizing_player) n with
    | (.error e, k) => (.error e, k)
    | (.ok r, k) =>
      match minimax_recT time_left TIMER_THRESHOLD scoreFn self rest depth
          maximizing_player k with
      | (.error e, k') => (.error e, k')
      | (.ok children, k') => (.ok ((r.1, m) :: children), k')

end

mutual

/-- `CustomPlayer.alphabeta` with its clock check: on entry, read the clock and
raise `Timeout` (modelled as `.error ()`) when `self.time_left() <
self.TIMER_THRESHOLD`; otherwise run the body of `alphabeta`, threading the read
counter through the move loop and propagating any `Timeout` raised there. -/
def alphabetaT {P : Type} (time_left : Clock) (TIMER_THRESHOLD : ℚ)
    (scoreFn : GTree → P → Score) (self : P) (game : GTree) (depth : ℕ)
    (alpha beta : Score) (maximizing_player : Bool) (n : ℕ) :
    Except Unit (Score × Move) × ℕ :=
  if time_left n < TIMER_THRESHOLD then (.error (), n + 1)
  else
    match game with
    | .node cs =>
      if depth = 0 then (.ok (scoreFn (.node cs) self, (-1, -1)), n + 1)
      else
        match cs with
        | [] => (.ok (scoreFn (.node cs) self, (-1, -1)), n + 1)
        | c :: cs' =>
          ab_loopT time_left TIMER_THRESHOLD scoreFn self (c :: cs') depth alpha
            beta maximizing_player
            (if maximizing_player then Score.negInf else Score.posInf) c.1 (n + 1)

/-- The `for move in legal_moves` loop of `alphabeta`, clock-instrumented: a
`Timeout` raised while scoring a child aborts the loop and propagates. -/
def ab_loopT {P : Type} (time_left : Clock) (TIMER_THRESHOLD : ℚ)
    (scoreFn : GTree → P → Score) (self : P) (moves : List (Move × GTree))
    (depth : ℕ) (alpha beta : Score) (maximizing_player : Bool)
    (best_score : Score) (best_move : Move) (n : ℕ) :
    Except Unit (Score × Move) × ℕ :=
  match moves with
  | [] => (.ok (best_score, best_move), n)
  | (m, c) :: rest =>
    match alphabetaT time_left TIMER_THRESHOLD scoreFn self c (depth - 1) alpha
        beta (!maximizing_player) n with
    | (.error e, k) => (.error e, k)
    | (.ok r, k) =>
      let s := r.1
      if (maximizing_player && Score.blt best_score s) ||
          (!maximizing_player && Score.blt s best_score) then
        if __prune__ alpha beta s maximizing_player then (.ok (s, m), k)
        else
          let ab := __update_limit__ alpha beta s maximizing_player
          ab_loopT time_left TIMER_THRESHOLD scoreFn self rest depth ab.1 ab.2
            maximizing_player s m k
      else
        ab_loopT time_left TIMER_THRESHOLD scoreFn self rest depth alpha beta
          maximizing_player best_score best_move k

end

/-- The `while True` iterative-deepening loop of `get_move`: call the search at the
current depth; on success record the returned move as the new best and repeat at
`depth + 1`; when a search raises `Timeout`, stop and keep the previously recorded
best move.  The `fuel` argument bounds the number of iterations unwound (the
Python loop has no bound of its own and is exited only by the `Timeout`
exception); every property proved below holds for arbitrary fuel. -/
def drive_loop (search : ℕ → ℕ → Except Unit (Score × Move) × ℕ) :
    ℕ → ℕ → ℕ → Move → Move
  | 0, _, _, best_move => best_move
  | fuel + 1, depth, n, best_move =>
    match search depth n with
    | (.ok r, k) => drive_loop search fuel (depth + 1) k r.2
    | (.error _, _) => best_move

/-- `CustomPlayer.get_move`: return `(-1, -1)` immediately when `legal_moves ==
[]`; otherwise seed `best_move = legal_moves[0]`, select the search method by name
(`.error ()` models the uncaught `ValueError` for an unsupported method), run
either the single fixed-depth search (`iterative = false`, at `search_depth`) or
the iterative-deepening loop starting at depth 1, catch `Timeout`, and return the
best move recorded by the last completed search. -/
def get_move {P : Type} (time_left : Clock) (TIMER_THRESHOLD : ℚ)
    (scoreFn : GTree → P → Score) (self : P) (game : GTree)
    (legal_moves : List Move) (method : String) (iterative : Bool)
    (search_depth : ℕ) (fuel n : ℕ) : Except Unit Move :=
  match legal_moves with
  | [] => .ok (-1, -1)
  | b :: _ =>
    let search? : Option (ℕ → ℕ → Except Unit (Score × Move) × ℕ) :=
      if method = "minimax" then
        some (fun d k => minimaxT time_left TIMER_THRESHOLD scoreFn self game d true k)
      else if method = "alphabeta" then
        some (fun d k =>
          alphabetaT time_left TIMER_THRESHOLD scoreFn self game d Score.negInf
            Score.posInf true k)
      else none
    match search? with
    | none => .error ()
    | some search =>
      .ok (if !iterative then
            match search search_depth n with
            | (.ok r, _) => r.2
            | (.error _, _) => b
          else drive_loop search fuel 1 n b)

/-! ## `heuristic_search.py`: the parameter sweep's output surface

The tournament rounds themselves call the external match-runner collaborator; the
win-percentage samples are therefore taken as an input list (`results`, one value
per swept coefficient).  Python's `str` rendering of floats is abstracted as a
formatting function `fmt`; `print` appends a newline, so each list element below
is one newline-terminated output line. -/

/-- The `alphas` grid of `heuristic_search.main`: `[x * 0.01 for x in
range(0, 120, 20)]`. -/
def sweep_alphas : List ℚ :=
  ((List.range 6).map (fun x : ℕ => 20 * x)).map (fun x => (x : ℚ) * (0.01 : ℚ))

/-- The result lines of `heuristic_search.main`: `[str(alphas[i]) + '\t' +
str(results[i]) for i in range(len(alphas))]`. -/
def result_lines (fmt : ℚ → String) (alphas results : List ℚ) : List String :=
  (List.range alphas.length).map
    (fun i => fmt (alphas.getD i 0) ++ "\t" ++ fmt (results.getD i 0))

/-- The lines written by `heuristic_search.main`, as the pair `(stdout lines,
destination-file lines)`: stdout receives the start timestamp, one agent name
`"Alpha" + str(a)` per swept coefficient, and the end timestamp; the destination
file receives the result lines — but only when a `filename` was supplied
(`if filename:`), there is no `else` branch. -/
def main_writes (fmt : ℚ → String) (t0 t1 : String) (filename : Option String)
    (alphas results : List ℚ) : List String × List String :=
  (t0 :: alphas.map (fun a => "Alpha" ++ fmt a) ++ [t1],
   match filename with
   | some _ => result_lines fmt alphas results
   | none => [])

/-- The `__main__` block of `heuristic_search.py`: `filename = sys.argv[1]` with
the `IndexError` handler calling `main()` amounts to passing `argv[1]` when it
exists and no destination otherwise. -/
def main_filename (argv : List String) : Option String := argv[1]?

/-! ## Order lemmas for the Python comparisons -/

theorem Score.blt_irrefl (s : Score) : Score.blt s s = false := by
  cases s <;> simp [Score.blt]

theorem Score.blt_asymm {a b : Score} (h : Score.blt a b = true) :
    Score.blt b a = false := by
  cases a <;> cases b <;> simp_all [Score.blt] <;> linarith

theorem Score.blt_conn {a b : Score} (h1 : Score.blt a b = false)
    (h2 : Score.blt b a = false) : a = b := by
  cases a <;> cases b <;> simp_all [Score.blt] <;> linarith

theorem Score.blt_neg_trans {a b c : Score} (h1 : Score.blt b a = false)
    (h2 : Score.blt c b = false) : Score.blt c a = false := by
  cases a <;> cases b <;> cases c <;> simp_all [Score.blt] <;> linarith

theorem move_blt_irrefl (m : Move) : move_blt m m = false := by
  simp [move_blt]

theorem move_blt_asymm {a b : Move} (h : move_blt a b = true) :
    move_blt b a = false := by
  simp only [move_blt, Bool.or_eq_true, Bool.and_eq_true, decide_eq_true_eq] at h
  simp only [move_blt, Bool.or_eq_false_iff, Bool.and_eq_false_iff,
    decide_eq_false_iff_not]
  omega

theorem move_blt_neg_trans {a b c : Move} (h1 : move_blt b a = false)
    (h2 : move_blt c b = false) : move_blt c a = false := by
  simp only [move_blt, Bool.or_eq_false_iff, Bool.and_eq_false_iff,
    decide_eq_false_iff_not] at h1 h2 ⊢
  omega

theorem tuple_blt_iff {x y : Score × Move} :
    tuple_blt x y = true ↔
      (Score.blt x.1 y.1 = true ∨ (x.1 = y.1 ∧ move_blt x.2 y.2 = true)) := by
  simp [tuple_blt]

theorem tuple_blt_eq_false_iff {x y : Score × Move} :
    tuple_blt x y = false ↔
      (Score.blt x.1 y.1 = false ∧ (x.1 = y.1 → move_blt x.2 y.2 = false)) := by
  cases hs : Score.blt x.1 y.1 <;> cases hm : move_blt x.2 y.2 <;>
    by_cases he : x.1 = y.1 <;> simp_all [tuple_blt, Score.blt_irrefl]

theorem tuple_blt_irrefl (x : Score × Move) : tuple_blt x x = false := by
  simp [tuple_blt, Score.blt_irrefl, move_blt_irrefl]

theorem tuple_blt_asymm {x y : Score × Move} (h : tuple_blt x y = true) :
    tuple_blt y x = false := by
  rw [tuple_blt_iff] at h
  rw [tuple_blt_eq_false_iff]
  rcases h with hs | ⟨he, hm⟩
  · refine ⟨Score.blt_asymm hs, fun he' => ?_⟩
    rw [he'] at hs
    rw [Score.blt_irrefl] at hs
    exact absurd hs (by simp)
  · rw [← he]
    exact ⟨Score.blt_irrefl _, fun _ => move_blt_asymm hm⟩

theorem tuple_blt_neg_trans {x y z : Score × Move} (h1 : tuple_blt y x = false)
    (h2 : tuple_blt z y = false) : tuple_blt z x = false := by
  rw [tuple_blt_eq_false_iff] at h1 h2 ⊢
  refine ⟨Score.blt_neg_trans h1.1 h2.1, fun he => ?_⟩
  have hyx : y.1 = x.1 := by
    apply Score.blt_conn h1.1
    rw [← he]
    exact h2.1
  have hzy : z.1 = y.1 := he.trans hyx.symm
  exact move_blt_neg_trans (h1.2 hyx) (h2.2 hzy)

theorem tuple_ble_refl (x : Score × Move) : tuple_ble x x = true := by
  simp [tuple_ble, tuple_blt_irrefl]

theorem tuple_ble_trans {x y z : Score × Move} (h1 : tuple_ble x y = true)
    (h2 : tuple_ble y z = true) : tuple_ble x z = true := by
  simp only [tuple_ble, Bool.not_eq_true'] at h1 h2 ⊢
  exact tuple_blt_neg_trans h1 h2

/-! ## Characterization of `pyMax` / `pyMin` -/

theorem foldlMax_mem (xs : List (Score × Move)) (x : Score × Move) :
    xs.foldl (fun cur y => if tuple_blt cur y then y else cur) x ∈ x :: xs := by
  induction xs generalizing x with
  | nil => simp
  | cons y ys ih =>
    simp only [List.foldl_cons]
    have h := ih (if tuple_blt x y then y else x)
    rcases List.mem_cons.mp h with h1 | h2
    · rw [h1]
      by_cases hb : tuple_blt x y = true <;> simp [hb]
    · exact List.mem_cons_of_mem _ (List.mem_cons_of_mem _ h2)

theorem foldlMax_ge (xs : List (Score × Move)) : ∀ (x z : Score × Move),
    z ∈ x :: xs →
    tuple_ble z (xs.foldl (fun cur y => if tuple_blt cur y then y else cur) x)
      = true := by
  induction xs with
  | nil =>
    intro x z hz
    simp only [List.mem_singleton] at hz
    subst hz
    simp [tuple_ble, tuple_blt_irrefl]
  | cons y ys ih =>
    intro x z hz
    simp only [List.foldl_cons]
    have hstep_x : tuple_ble x (if tuple_blt x y then y else x) = true := by
      by_cases hb : tuple_blt x y = true <;>
        simp [hb, tuple_ble, tuple_blt_asymm, tuple_blt_irrefl]
    have hstep_y : tuple_ble y (if tuple_blt x y then y else x) = true := by
      by_cases hb : tuple_blt x y = true <;>
        simp_all [tuple_ble, tuple_blt_irrefl]
    have hres : tuple_ble (if tuple_blt x y then y else x)
        (ys.foldl (fun cur y => if tuple_blt cur y then y else cur)
          (if tuple_blt x y then y else x)) = true :=
      ih _ _ (List.mem_cons_self _ _)
    rcases List.mem_cons.mp hz with rfl | hz'
    · exact tuple_ble_trans hstep_x hres
    · rcases List.mem_cons.mp hz' with rfl | hz''
      · exact tuple_ble_trans hstep_y hres
      · exact ih _ _ (List.mem_cons_of_mem _ hz'')

theorem foldlMin_mem (xs : List (Score × Move)) (x : Score × Move) :
    xs.foldl (fun cur y => if tuple_blt y cur then y else cur) x ∈ x :: xs := by
  induction xs generalizing x with
  | nil => simp
  | cons y ys ih =>
    simp only [List.foldl_cons]
    have h := ih (if tuple_blt y x then y else x)
    rcases List.mem_cons.mp h with h1 | h2
    · rw [h1]
      by_cases hb : tuple_blt y x = true <;> simp [hb]
    · exact List.mem_cons_of_mem _ (List.mem_cons_of_mem _ h2)

theorem foldlMin_le (xs : List (Score × Move)) : ∀ (x z : Score × Move),
    z ∈ x :: xs →
    tuple_ble (xs.foldl (fun cur y => if tuple_blt y cur then y else cur) x) z
      = true := by
  induction xs with
  | nil =>
    intro x z hz
    simp only [List.mem_singleton] at hz
    subst hz
    simp [tuple_ble, tuple_blt_irrefl]
  | cons y ys ih =>
    intro x z hz
    simp only [List.foldl_cons]
    have hstep_x : tuple_ble (if tuple_blt y x then y else x) x = true := by
      by_cases hb : tuple_blt y x = true <;>
        simp [hb, tuple_ble, tuple_blt_asymm, tuple_blt_irrefl]
    have hstep_y : tuple_ble (if tuple_blt y x then y else x) y = true := by
      by_cases hb : tuple_blt y x = true <;>
        simp_all [tuple_ble, tuple_blt_irrefl]
    have hres : tuple_ble
        (ys.foldl (fun cur y => if tuple_blt y cur then y else cur)
          (if tuple_blt y x then y else x))
        (if tuple_blt y x then y else x) = true :=
      ih _ _ (List.mem_cons_self _ _)
    rcases List.mem_cons.mp hz with rfl | hz'
    · exact tuple_ble_trans hres hstep_x
    · rcases List.mem_cons.mp hz' with rfl | hz''
      · exact tuple_ble_trans hres hstep_y
      · exact ih _ _ (List.mem_cons_of_mem _ hz'')

theorem pyMax_mem (x : Score × Move) (xs : List (Score × Move)) :
    pyMax (x :: xs) ∈ x :: xs :=
  foldlMax_mem xs x

theorem pyMax_ge (x z : Score × Move) (xs : List (Score × Move))
    (hz : z ∈ x :: xs) : tuple_ble z (pyMax (x :: xs)) = true :=
  foldlMax_ge xs x z hz

theorem pyMin_mem (x : Score × Move) (xs : List (Score × Move)) :
    pyMin (x :: xs) ∈ x :: xs :=
  foldlMin_mem xs x

theorem pyMin_le (x z : Score × Move) (xs : List (Score × Move))
    (hz : z ∈ x :: xs) : tuple_ble (pyMin (x :: xs)) z = true :=
  foldlMin_le xs x z hz

/-! ## Equation lemmas for the search functions -/

theorem minimax_nil {P : Type} (scoreFn : GTree → P → Score) (self : P)
    (depth : ℕ) (maxi : Bool) :
    minimax scoreFn self (.node []) depth maxi =
      (scoreFn (.node []) self, (-1, -1)) := by
  rw [minimax]

theorem minimax_cons {P : Type} (scoreFn : GTree → P → Score) (self : P)
    (c : Move × GTree) (cs : List (Move × GTree)) (depth : ℕ) (maxi : Bool) :
    minimax scoreFn self (.node (c :: cs)) depth maxi =
      (if maxi then pyMax (minimax_children scoreFn self (c :: cs) depth maxi)
       else pyMin (minimax_children scoreFn self (c :: cs) depth maxi)) := by
  rw [minimax]

theorem minimax_children_eq {P : Type} (scoreFn : GTree → P → Score) (self : P)
    (moves : List (Move × GTree)) (depth : ℕ) (maxi : Bool) :
    minimax_children scoreFn self moves depth maxi =
      (if depth = 1 then moves.map (fun x => (scoreFn x.2 self, x.1))
       else minimax_rec scoreFn self moves depth maxi) := by
  rw [minimax_children]

theorem minimax_rec_nil {P : Type} (scoreFn : GTree → P → Score) (self : P)
    (depth : ℕ) (maxi : Bool) :
    minimax_rec scoreFn self [] depth maxi = [] := by
  rw [minimax_rec]

theorem minimax_rec_cons {P : Type} (scoreFn : GTree → P → Score) (self : P)
    (m : Move) (c : GTree) (rest : List (Move × GTree)) (depth : ℕ) (maxi : Bool) :
    minimax_rec scoreFn self ((m, c) :: rest) depth maxi =
      ((minimax scoreFn self c (depth - 1) (!maxi)).1, m) ::
        minimax_rec scoreFn self rest depth maxi := by
  rw [minimax_rec]

theorem alphabeta_depth_zero {P : Type} (scoreFn : GTree → P → Score) (self : P)
    (g : GTree) (alpha beta : Score) (maxi : Bool) :
    alphabeta scoreFn self g 0 alpha beta maxi = (scoreFn g self, (-1, -1)) := by
  cases g with
  | node cs =>
    rw [alphabeta.eq_def]
    simp

theorem alphabeta_nil {P : Type} (scoreFn : GTree → P → Score) (self : P)
    (depth : ℕ) (alpha beta : Score) (maxi : Bool) :
    alphabeta scoreFn self (.node []) depth alpha beta maxi =
      (scoreFn (.node []) self, (-1, -1)) := by
  rw [alphabeta]
  by_cases h : depth = 0 <;> simp [h]

theorem alphabeta_cons {P : Type} (scoreFn : GTree → P → Score) (self : P)
    (c : Move × GTree) (cs : List (Move × GTree)) (depth : ℕ)
    (alpha beta : Score) (maxi : Bool) (h : depth ≠ 0) :
    alphabeta scoreFn self (.node (c :: cs)) depth alpha beta maxi =
      ab_loop scoreFn self (c :: cs) depth alpha beta maxi
        (if maxi then Score.negInf else Score.posInf) c.1 := by
  rw [alphabeta]
  simp [h]

theorem ab_loop_nil {P : Type} (scoreFn : GTree → P → Score) (self : P)
    (depth : ℕ) (alpha beta : Score) (maxi : Bool) (bs : Score) (bm : Move) :
    ab_loop scoreFn self [] depth alpha beta maxi bs bm = (bs, bm) := by
  rw [ab_loop]

theorem ab_loop_cons {P : Type} (scoreFn : GTree → P → Score) (self : P)
    (m : Move) (c : GTree) (rest : List (Move × GTree)) (depth : ℕ)
    (alpha beta : Score) (maxi : Bool) (bs : Score) (bm : Move) :
    ab_loop scoreFn self ((m, c) :: rest) depth alpha beta maxi bs bm =
      (let s := (alphabeta scoreFn self c (depth - 1) alpha beta (!maxi)).1
       if (maxi && Score.blt bs s) || (!maxi && Score.blt s bs) then
         if __prune__ alpha beta s maxi then (s, m)
         else
           let ab := __update_limit__ alpha beta s maxi
           ab_loop scoreFn self rest depth ab.1 ab.2 maxi s m
       else ab_loop scoreFn self rest depth alpha beta maxi bs bm) := by
  rw [ab_loop]

/-! ## The move component of a search result is a legal move -/

theorem minimax_rec_snd_map {P : Type} (scoreFn : GTree → P → Score) (self : P)
    (moves : List (Move × GTree)) (depth : ℕ) (maxi : Bool) :
    (minimax_rec scoreFn self moves depth maxi).map Prod.snd =
      moves.map Prod.fst := by
  induction moves with
  | nil => simp [minimax_rec_nil]
  | cons p ps ih =>
    obtain ⟨m, c⟩ := p
    simp [minimax_rec_cons, ih]

theorem minimax_children_snd_map {P : Type} (scoreFn : GTree → P → Score)
    (self : P) (moves : List (Move × GTree)) (depth : ℕ) (maxi : Bool) :
    (minimax_children scoreFn self moves depth maxi).map Prod.snd =
      moves.map Prod.fst := by
  rw [minimax_children_eq]
  by_cases h : depth = 1
  · simp [h]
  · simp [h, minimax_rec_snd_map]

theorem minimax_move_mem {P : Type} (scoreFn : GTree → P → Score) (self : P)
    (c : Move × GTree) (cs : List (Move × GTree)) (depth : ℕ) (maxi : Bool) :
    (minimax scoreFn self (.node (c :: cs)) depth maxi).2 ∈
      get_legal_moves (.node (c :: cs)) := by
  rw [minimax_cons]
  have hne : minimax_children scoreFn self (c :: cs) depth maxi ≠ [] := by
    intro h
    have := minimax_children_snd_map scoreFn self (c :: cs) depth maxi
    rw [h] at this
    simp at this
  obtain ⟨x, xs, hxs⟩ := List.exists_cons_of_ne_nil hne
  have hm : (if maxi then pyMax (minimax_children scoreFn self (c :: cs) depth maxi)
      else pyMin (minimax_children scoreFn self (c :: cs) depth maxi)) ∈
      minimax_children scoreFn self (c :: cs) depth maxi := by
    rw [hxs]
    cases maxi with
    | false => simpa using pyMin_mem x xs
    | true => simpa using pyMax_mem x xs
  have := List.mem_map_of_mem Prod.snd hm
  rw [minimax_children_snd_map] at this
  exact this

theorem ab_loop_move_mem {P : Type} (scoreFn : GTree → P → Score) (self : P)
    (S : List Move) (depth : ℕ) :
    ∀ (moves : List (Move × GTree)) (alpha beta : Score) (maxi : Bool)
      (bs : Score) (bm : Move), bm ∈ S → (∀ p ∈ moves, p.1 ∈ S) →
      (ab_loop scoreFn self moves depth alpha beta maxi bs bm).2 ∈ S := by
  intro moves
  induction moves with
  | nil =>
    intro alpha beta maxi bs bm hbm _
    rw [ab_loop_nil]
    exact hbm
  | cons p ps ih =>
    intro alpha beta maxi bs bm hbm hmv
    obtain ⟨m, c⟩ := p
    rw [ab_loop_cons]
    have hm : m ∈ S := hmv (m, c) (List.mem_cons_self _ _)
    simp only
    split
    · split
      · exact hm
      · exact ih _ _ _ _ _ hm (fun q hq => hmv q (List.mem_cons_of_mem _ hq))
    · exact ih _ _ _ _ _ hbm (fun q hq => hmv q (List.mem_cons_of_mem _ hq))

theorem alphabeta_move_mem {P : Type} (scoreFn : GTree → P → Score) (self : P)
    (c : Move × GTree) (cs : List (Move × GTree)) (depth : ℕ)
    (alpha beta : Score) (maxi : Bool) (h : depth ≠ 0) :
    (alphabeta scoreFn self (.node (c :: cs)) depth alpha beta maxi).2 ∈
      get_legal_moves (.node (c :: cs)) := by
  rw [alphabeta_cons scoreFn self c cs depth alpha beta maxi h]
  apply ab_loop_move_mem
  · exact List.mem_map_of_mem Prod.fst (List.mem_cons_self _ _)
  · intro p hp
    exact List.mem_map_of_mem Prod.fst hp

/-! ## Structural induction over game trees -/

theorem GTree.ind (motive : GTree → Prop)
    (h : ∀ cs : List (Move × GTree), (∀ p ∈ cs, motive p.2) → motive (.node cs)) :
    ∀ g, motive g
  | .node cs => h cs (fun p hp => GTree.ind motive h p.2)
decreasing_by
  have h1 := List.sizeOf_lt_of_mem hp
  cases p
  simp_all
  omega

/-! ## The search result depends on the score function only through `self` -/

theorem minimax_rec_congr {P : Type} (f g : GTree → P → Score) (self : P)
    (cs : List (Move × GTree))
    (ih : ∀ p ∈ cs, ∀ (depth : ℕ) (maxi : Bool),
      minimax f self p.2 depth maxi = minimax g self p.2 depth maxi) :
    ∀ (depth : ℕ) (maxi : Bool),
      minimax_rec f self cs depth maxi = minimax_rec g self cs depth maxi := by
  induction cs with
  | nil => intro depth maxi; rw [minimax_rec_nil, minimax_rec_nil]
  | cons p ps ihl =>
    intro depth maxi
    obtain ⟨m, c⟩ := p
    rw [minimax_rec_cons, minimax_rec_cons]
    rw [ih (m, c) (List.mem_cons_self _ _)]
    rw [ihl (fun q hq => ih q (List.mem_cons_of_mem _ hq))]

theorem minimax_congr {P : Type} (f g : GTree → P → Score) (self : P)
    (hfg : ∀ t, f t self = g t self) :
    ∀ (t : GTree) (depth : ℕ) (maxi : Bool),
      minimax f self t depth maxi = minimax g self t depth maxi := by
  intro t
  induction t using GTree.ind with
  | h cs ih =>
    intro depth maxi
    cases cs with
    | nil => rw [minimax_nil, minimax_nil, hfg]
    | cons c cs' =>
      rw [minimax_cons, minimax_cons]
      have hch : minimax_children f self (c :: cs') depth maxi =
          minimax_children g self (c :: cs') depth maxi := by
        rw [minimax_children_eq, minimax_children_eq]
        by_cases hd : depth = 1
        · simp only [hd, if_true]
          apply List.map_congr_left
          intro x _
          rw [hfg]
        · simp only [hd, if_false]
          exact minimax_rec_congr f g self (c :: cs') ih depth maxi
      rw [hch]

theorem ab_loop_congr {P : Type} (f g : GTree → P → Score) (self : P)
    (cs : List (Move × GTree))
    (ih : ∀ p ∈ cs, ∀ (depth : ℕ) (alpha beta : Score) (maxi : Bool),
      alphabeta f self p.2 depth alpha beta maxi =
        alphabeta g self p.2 depth alpha beta maxi) :
    ∀ (depth : ℕ) (alpha beta : Score) (maxi : Bool) (bs : Score) (bm : Move),
      ab_loop f self cs depth alpha beta maxi bs bm =
        ab_loop g self cs depth alpha beta maxi bs bm := by
  induction cs with
  | nil => intro depth alpha beta maxi bs bm; rw [ab_loop_nil, ab_loop_nil]
  | cons p ps ihl =>
    intro depth alpha beta maxi bs bm
    obtain ⟨m, c⟩ := p
    rw [ab_loop_cons, ab_loop_cons]
    rw [ih (m, c) (List.mem_cons_self _ _)]
    simp only
    have ih' := fun q hq => ih q (List.mem_cons_of_mem _ hq)
    split
    · split
      · rfl
      · exact ihl ih' _ _ _ _ _ _
    · exact ihl ih' _ _ _ _ _ _

theorem alphabeta_congr {P : Type} (f g : GTree → P → Score) (self : P)
    (hfg : ∀ t, f t self = g t self) :
    ∀ (t : GTree) (depth : ℕ) (alpha beta : Score) (maxi : Bool),
      alphabeta f self t depth alpha beta maxi =
        alphabeta g self t depth alpha beta maxi := by
  intro t
  induction t using GTree.ind with
  | h cs ih =>
    intro depth alpha beta maxi
    cases cs with
    | nil => rw [alphabeta_nil, alphabeta_nil, hfg]
    | cons c cs' =>
      by_cases hd : depth = 0
      · subst hd
        rw [alphabeta_depth_zero, alphabeta_depth_zero, hfg]
      · rw [alphabeta_cons f self c cs' depth alpha beta maxi hd,
          alphabeta_cons g self c cs' depth alpha beta maxi hd]
        exact ab_loop_congr f g self (c :: cs') ih _ _ _ _ _ _

/-- C10: every heuristic evaluation performed anywhere inside `minimax` or
`alphabeta` passes the agent itself (`self`) as the perspective player: two score
functions that agree from `self`'s point of view (but may differ arbitrarily for
every other player) produce identical search results at every board, depth, bound
pair and value of the maximizing flag, so the flag never changes whose point of
view the evaluation uses. -/
theorem score_perspective_is_self {P : Type} (f g : GTree → P → Score) (self : P)
    (hfg : ∀ t, f t self = g t self) :
    ∀ (t : GTree) (depth : ℕ) (alpha beta : Score) (maxi : Bool),
      minimax f self t depth maxi = minimax g self t depth maxi ∧
      alphabeta f self t depth alpha beta maxi =
        alphabeta g self t depth alpha beta maxi := by
  intro t depth alpha beta maxi
  exact ⟨minimax_congr f g self hfg t depth maxi,
    alphabeta_congr f g self hfg t depth alpha beta maxi⟩

/-- C10 witness: two score functions that agree for player `true` (`self`) and
differ for player `false` yield the same search results on a concrete board. -/
theorem score_perspective_is_self_witness :
    (∀ t : GTree, (fun _ p => if p then Score.fin 1 else Score.fin 2) t true =
      (fun _ p => if p then Score.fin 1 else Score.fin 3) t true) ∧
    (minimax (fun _ p => if p then Score.fin 1 else Score.fin 2) true
        (.node [((0, 0), .node []), ((1, 1), .node [])]) 2 true =
      minimax (fun _ p => if p then Score.fin 1 else Score.fin 3) true
        (.node [((0, 0), .node []), ((1, 1), .node [])]) 2 true ∧
    alphabeta (fun _ p => if p then Score.fin 1 else Score.fin 2) true
        (.node [((0, 0), .node []), ((1, 1), .node [])]) 2 Score.negInf
        Score.posInf true =
      alphabeta (fun _ p => if p then Score.fin 1 else Score.fin 3) true
        (.node [((0, 0), .node []), ((1, 1), .node [])]) 2 Score.negInf
        Score.posInf true) :=
  ⟨fun _ => rfl,
    score_perspective_is_self
      (fun _ p => if p then Score.fin 1 else Score.fin 2)
      (fun _ p => if p then Score.fin 1 else Score.fin 3) true (fun _ => rfl)
      (.node [((0, 0), .node []), ((1, 1), .node [])]) 2 Score.negInf
      Score.posInf true⟩

/-- C1: after a child's score strictly improves `best_score` and the prune test
fails, the loop continues with the bounds produced by `__update_limit__`, and
`__update_limit__` overwrites exactly one bound by unconditional assignment —
`alpha := best_score` on a maximizing layer, `beta := best_score` on a minimizing
layer — never merging with the previous bound via `max`/`min` (the equations hold
for every previous bound, including bounds above/below the new score), and leaves
the other bound unchanged. -/
theorem update_limit_overwrites_single_bound :
    (∀ (alpha beta s : Score), __update_limit__ alpha beta s true = (s, beta)) ∧
    (∀ (alpha beta s : Score), __update_limit__ alpha beta s false = (alpha, s)) ∧
    (∀ {P : Type} (scoreFn : GTree → P → Score) (self : P) (m : Move)
      (rest : List (Move × GTree)) (depth : ℕ) (alpha beta : Score) (bs : Score)
      (bm : Move) (maxi : Bool),
      ((maxi && Score.blt bs (scoreFn (.node []) self)) ||
        (!maxi && Score.blt (scoreFn (.node []) self) bs)) = true →
      __prune__ alpha beta (scoreFn (.node []) self) maxi = false →
      ab_loop scoreFn self ((m, .node []) :: rest) depth alpha beta maxi bs bm =
        ab_loop scoreFn self rest depth
          (__update_limit__ alpha beta (scoreFn (.node []) self) maxi).1
          (__update_limit__ alpha beta (scoreFn (.node []) self) maxi).2
          maxi (scoreFn (.node []) self) m) := by
  refine ⟨fun alpha beta s => rfl, fun alpha beta s => rfl, ?_⟩
  intro P scoreFn self m rest depth alpha beta bs bm maxi h1 h2
  rw [ab_loop_cons]
  simp only [alphabeta_nil]
  rw [h1, h2]
  simp

/-- C1 witness: a concrete non-pruning strict improvement on a maximizing layer
continues the loop with `alpha` overwritten to the new best score. -/
theorem update_limit_overwrites_single_bound_witness :
    ((true && Score.blt Score.negInf ((fun (_ : GTree) (_ : Unit) => Score.fin 1)
        (.node []) ())) ||
      (!true && Score.blt ((fun (_ : GTree) (_ : Unit) => Score.fin 1)
        (.node []) ()) Score.negInf)) = true ∧
    __prune__ Score.negInf Score.posInf ((fun (_ : GTree) (_ : Unit) =>
      Score.fin 1) (.node []) ()) true = false ∧
    ab_loop (fun (_ : GTree) (_ : Unit) => Score.fin 1) () (((0, 0), .node []) ::
        []) 1 Score.negInf Score.posInf true Score.negInf (0, 0) =
      ab_loop (fun (_ : GTree) (_ : Unit) => Score.fin 1) () [] 1
        (__update_limit__ Score.negInf Score.posInf ((fun (_ : GTree)
          (_ : Unit) => Score.fin 1) (.node []) ()) true).1
        (__update_limit__ Score.negInf Score.posInf ((fun (_ : GTree)
          (_ : Unit) => Score.fin 1) (.node []) ()) true).2
        true ((fun (_ : GTree) (_ : Unit) => Score.fin 1) (.node []) ()) (0, 0) :=
  ⟨by decide, by decide,
    update_limit_overwrites_single_bound.2.2
      (fun (_ : GTree) (_ : Unit) => Score.fin 1) () (0, 0) [] 1 Score.negInf
      Score.posInf Score.negInf (0, 0) true (by decide) (by decide)⟩

/-- C2: the two search entry points have asymmetric base cases: `alphabeta`
returns `(score(board, self), (-1, -1))` exactly when `depth == 0` or the side to
move has no legal moves (the converse direction holds whenever the sentinel is
not itself a legal move), whereas `minimax` at `depth == 1` with legal moves
available does not bottom out: it selects among the heuristic values of the
forecasted children and returns one of the legal moves. -/
theorem base_case_asymmetry :
    (∀ {P : Type} (scoreFn : GTree → P → Score) (self : P) (g : GTree)
      (depth : ℕ) (alpha beta : Score) (maxi : Bool),
      depth = 0 ∨ get_legal_moves g = [] →
      alphabeta scoreFn self g depth alpha beta maxi =
        (scoreFn g self, (-1, -1))) ∧
    (∀ {P : Type} (scoreFn : GTree → P → Score) (self : P) (g : GTree)
      (depth : ℕ) (alpha beta : Score) (maxi : Bool),
      ((-1, -1) : Move) ∉ get_legal_moves g → depth ≠ 0 →
      get_legal_moves g ≠ [] →
      alphabeta scoreFn self g depth alpha beta maxi ≠
        (scoreFn g self, (-1, -1))) ∧
    (∀ {P : Type} (scoreFn : GTree → P → Score) (self : P) (g : GTree)
      (maxi : Bool), get_legal_moves g ≠ [] →
      minimax scoreFn self g 1 maxi =
        (if maxi then pyMax (g.children.map (fun x => (scoreFn x.2 self, x.1)))
         else pyMin (g.children.map (fun x => (scoreFn x.2 self, x.1)))) ∧
      (((-1, -1) : Move) ∉ get_legal_moves g →
        (minimax scoreFn self g 1 maxi).2 ≠ (-1, -1))) := by
  refine ⟨?_, ?_, ?_⟩
  · intro P scoreFn self g depth alpha beta maxi h
    cases g with
    | node cs =>
      rcases h with h | h
      · subst h
        exact alphabeta_depth_zero scoreFn self (.node cs) alpha beta maxi
      · have hcs : cs = [] := by
          simpa [get_legal_moves, GTree.children] using h
        subst hcs
        exact alphabeta_nil scoreFn self depth alpha beta maxi
  · intro P scoreFn self g depth alpha beta maxi hsent hd hne
    cases g with
    | node cs =>
      have hcs : cs ≠ [] := by
        intro h
        subst h
        simp [get_legal_moves, GTree.children] at hne
      obtain ⟨c, cs', rfl⟩ := List.exists_cons_of_ne_nil hcs
      have hmem := alphabeta_move_mem scoreFn self c cs' depth alpha beta maxi hd
      intro heq
      rw [heq] at hmem
      exact hsent hmem
  · intro P scoreFn self g maxi hne
    cases g with
    | node cs =>
      have hcs : cs ≠ [] := by
        intro h
        subst h
        simp [get_legal_moves, GTree.children] at hne
      obtain ⟨c, cs', rfl⟩ := List.exists_cons_of_ne_nil hcs
      constructor
      · rw [minimax_cons, minimax_children_eq]
        simp [GTree.children]
      · intro hsent heq
        have hmem := minimax_move_mem scoreFn self c cs' 1 maxi
        rw [heq] at hmem
        exact hsent hmem

/-- C2 witness: on a concrete two-move board, `alphabeta` bottoms out at depth 0
but not at depth 1, and `minimax` at depth 1 selects among the children. -/
theorem base_case_asymmetry_witness :
    (alphabeta (fun _ (_ : Unit) => Score.fin 1) ()
        (.node [((0, 0), .node []), ((1, 1), .node [])]) 0 Score.negInf
        Score.posInf true = (Score.fin 1, (-1, -1))) ∧
    (alphabeta (fun _ (_ : Unit) => Score.fin 1) ()
        (.node [((0, 0), .node []), ((1, 1), .node [])]) 1 Score.negInf
        Score.posInf true ≠ (Score.fin 1, (-1, -1))) ∧
    (minimax (fun _ (_ : Unit) => Score.fin 1) ()
        (.node [((0, 0), .node []), ((1, 1), .node [])]) 1 true =
      pyMax ([((0, 0), GTree.node []), ((1, 1), GTree.node [])].map
        (fun x => ((fun _ (_ : Unit) => Score.fin 1) x.2 (), x.1)))) := by
  refine ⟨?_, ?_, ?_⟩
  · exact base_case_asymmetry.1 (fun _ _ => Score.fin 1) ()
      (.node [((0, 0), .node []), ((1, 1), .node [])]) 0 Score.negInf
      Score.posInf true (Or.inl rfl)
  · exact base_case_asymmetry.2.1 (fun _ _ => Score.fin 1) ()
      (.node [((0, 0), .node []), ((1, 1), .node [])]) 1 Score.negInf
      Score.posInf true (by decide) (by decide) (by decide)
  · have h := (base_case_asymmetry.2.2 (fun _ _ => Score.fin 1) ()
      (.node [((0, 0), .node []), ((1, 1), .node [])]) true (by decide)).1
    simpa using h

/-- C3: for every board, every driver-accepted depth (`1 <= depth`) and both
values of the maximizing flag, the move component of the pair returned by
`minimax` and by `alphabeta` is one of the legal moves of the side to move at
that node when any exist, and is the sentinel `(-1, -1)` when that side has no
legal moves. -/
theorem search_move_legal {P : Type} (scoreFn : GTree → P → Score) (self : P)
    (g : GTree) (depth : ℕ) (alpha beta : Score) (maxi : Bool)
    (hd : 1 ≤ depth) :
    (get_legal_moves g = [] →
      (minimax scoreFn self g depth maxi).2 = (-1, -1) ∧
      (alphabeta scoreFn self g depth alpha beta maxi).2 = (-1, -1)) ∧
    (get_legal_moves g ≠ [] →
      (minimax scoreFn self g depth maxi).2 ∈ get_legal_moves g ∧
      (alphabeta scoreFn self g depth alpha beta maxi).2 ∈ get_legal_moves g) := by
  cases g with
  | node cs =>
    constructor
    · intro hnil
      have hcs : cs = [] := by
        simpa [get_legal_moves, GTree.children] using hnil
      subst hcs
      rw [minimax_nil, alphabeta_nil]
      exact ⟨rfl, rfl⟩
    · intro hne
      have hcs : cs ≠ [] := by
        intro h
        subst h
        simp [get_legal_moves, GTree.children] at hne
      obtain ⟨c, cs', rfl⟩ := List.exists_cons_of_ne_nil hcs
      refine ⟨minimax_move_mem scoreFn self c cs' depth maxi, ?_⟩
      exact alphabeta_move_mem scoreFn self c cs' depth alpha beta maxi
        (by omega)

/-- C3 witness: on a concrete two-move board at depth 1 both searches return one
of the two legal moves, and on the empty board both return the sentinel. -/
theorem search_move_legal_witness :
    ((minimax (fun _ (_ : Unit) => Score.fin 1) ()
        (.node [((0, 0), .node []), ((1, 1), .node [])]) 1 true).2 ∈
      get_legal_moves (.node [((0, 0), .node []), ((1, 1), .node [])]) ∧
    (alphabeta (fun _ (_ : Unit) => Score.fin 1) ()
        (.node [((0, 0), .node []), ((1, 1), .node [])]) 1 Score.negInf
        Score.posInf true).2 ∈
      get_legal_moves (.node [((0, 0), .node []), ((1, 1), .node [])])) ∧
    ((minimax (fun _ (_ : Unit) => Score.fin 1) () (.node []) 1 true).2 =
      (-1, -1) ∧
    (alphabeta (fun _ (_ : Unit) => Score.fin 1) () (.node []) 1 Score.negInf
        Score.posInf true).2 = (-1, -1)) :=
  ⟨(search_move_legal (fun _ _ => Score.fin 1) ()
      (.node [((0, 0), .node []), ((1, 1), .node [])]) 1 Score.negInf
      Score.posInf true (by decide)).2 (by decide),
   (search_move_legal (fun _ _ => Score.fin 1) () (.node []) 1 Score.negInf
      Score.posInf true (by decide)).1 (by decide)⟩

theorem tuple_ble_move {x r : Score × Move} (h : tuple_ble x r = true)
    (he : x.1 = r.1) : move_ble x.2 r.2 = true := by
  simp only [tuple_ble, Bool.not_eq_true'] at h
  rw [tuple_blt_eq_false_iff] at h
  have := h.2 he.symm
  simp [move_ble, this]

/-- C7: for every board with legal moves and every driver-accepted depth
(`depth >= 2` recursively, `depth == 1` via the leaf shortcut), `minimax` selects
among the `(score, move)` tuples of its children by full-tuple comparison: the
returned pair is an element of the children list, it is the maximum of the list
under the lexicographic tuple order on a maximizing layer and the minimum on a
minimizing layer, and among children with equal scores the returned move is the
lexicographically greatest (maximizing) respectively least (minimizing)
`(row, column)` pair. -/
theorem minimax_full_tuple_selection {P : Type} (scoreFn : GTree → P → Score)
    (self : P) (g : GTree) (depth : ℕ) (maxi : Bool)
    (hne : get_legal_moves g ≠ []) (hd : 1 ≤ depth) :
    minimax scoreFn self g depth maxi ∈
      minimax_children scoreFn self g.children depth maxi ∧
    (∀ x ∈ minimax_children scoreFn self g.children depth maxi,
      (if maxi then tuple_ble x (minimax scoreFn self g depth maxi)
       else tuple_ble (minimax scoreFn self g depth maxi) x) = true) ∧
    (∀ x ∈ minimax_children scoreFn self g.children depth maxi,
      x.1 = (minimax scoreFn self g depth maxi).1 →
      (if maxi then move_ble x.2 (minimax scoreFn self g depth maxi).2
       else move_ble (minimax scoreFn self g depth maxi).2 x.2) = true) := by
  cases g with
  | node cs =>
    have hcs : cs ≠ [] := by
      intro h
      subst h
      simp [get_legal_moves, GTree.children] at hne
    obtain ⟨c, cs', rfl⟩ := List.exists_cons_of_ne_nil hcs
    have hch : minimax_children scoreFn self
        (GTree.children (.node (c :: cs'))) depth maxi =
        minimax_children scoreFn self (c :: cs') depth maxi := rfl
    have hchne : minimax_children scoreFn self (c :: cs') depth maxi ≠ [] := by
      intro h
      have := minimax_children_snd_map scoreFn self (c :: cs') depth maxi
      rw [h] at this
      simp at this
    obtain ⟨x0, xs0, hxs⟩ := List.exists_cons_of_ne_nil hchne
    have hmm := minimax_cons scoreFn self c cs' depth maxi
    rw [hch]
    rw [hxs] at hmm ⊢
    cases maxi with
    | true =>
      simp only [if_true] at hmm ⊢
      rw [hmm]
      refine ⟨pyMax_mem x0 xs0, fun x hx => pyMax_ge x0 x xs0 hx, ?_⟩
      intro x hx he
      exact tuple_ble_move (pyMax_ge x0 x xs0 hx) he
    | false =>
      simp only [Bool.false_eq_true, if_false] at hmm ⊢
      rw [hmm]
      refine ⟨pyMin_mem x0 xs0, fun x hx => pyMin_le x0 x xs0 hx, ?_⟩
      intro x hx he
      exact tuple_ble_move (pyMin_le x0 x xs0 hx) he.symm

/-- C7 witness: on a concrete board whose two children tie on score, `minimax`
returns the child pair that is lexicographically greatest, so the tie is broken
by the move coordinates. -/
theorem minimax_full_tuple_selection_witness :
    minimax (fun _ (_ : Unit) => Score.fin 1) ()
        (.node [((0, 0), .node []), ((1, 1), .node [])]) 1 true ∈
      minimax_children (fun _ (_ : Unit) => Score.fin 1) ()
        (GTree.children (.node [((0, 0), .node []), ((1, 1), .node [])])) 1
        true ∧
    (∀ x ∈ minimax_children (fun _ (_ : Unit) => Score.fin 1) ()
        (GTree.children (.node [((0, 0), .node []), ((1, 1), .node [])])) 1 true,
      (if true then tuple_ble x (minimax (fun _ (_ : Unit) => Score.fin 1) ()
          (.node [((0, 0), .node []), ((1, 1), .node [])]) 1 true)
       else tuple_ble (minimax (fun _ (_ : Unit) => Score.fin 1) ()
          (.node [((0, 0), .node []), ((1, 1), .node [])]) 1 true) x) = true) ∧
    (∀ x ∈ minimax_children (fun _ (_ : Unit) => Score.fin 1) ()
        (GTree.children (.node [((0, 0), .node []), ((1, 1), .node [])])) 1 true,
      x.1 = (minimax (fun _ (_ : Unit) => Score.fin 1) ()
        (.node [((0, 0), .node []), ((1, 1), .node [])]) 1 true).1 →
      (if true then move_ble x.2 (minimax (fun _ (_ : Unit) => Score.fin 1) ()
          (.node [((0, 0), .node []), ((1, 1), .node [])]) 1 true).2
       else move_ble (minimax (fun _ (_ : Unit) => Score.fin 1) ()
          (.node [((0, 0), .node []), ((1, 1), .node [])]) 1 true).2 x.2)
        = true) :=
  minimax_full_tuple_selection (fun _ _ => Score.fin 1) ()
    (.node [((0, 0), .node []), ((1, 1), .node [])]) 1 true (by decide)
    (by decide)

/-! ## Equation lemmas for the clock-instrumented search functions -/

theorem minimaxT_timeout {P : Type} (tl : Clock) (th : ℚ)
    (scoreFn : GTree → P → Score) (self : P) (g : GTree) (depth : ℕ)
    (maxi : Bool) (n : ℕ) (h : tl n < th) :
    minimaxT tl th scoreFn self g depth maxi n = (.error (), n + 1) := by
  rw [minimaxT.eq_def]
  simp [h]

theorem alphabetaT_timeout {P : Type} (tl : Clock) (th : ℚ)
    (scoreFn : GTree → P → Score) (self : P) (g : GTree) (depth : ℕ)
    (alpha beta : Score) (maxi : Bool) (n : ℕ) (h : tl n < th) :
    alphabetaT tl th scoreFn self g depth alpha beta maxi n =
      (.error (), n + 1) := by
  rw [alphabetaT.eq_def]
  simp [h]

theorem minimaxT_nil {P : Type} (tl : Clock) (th : ℚ)
    (scoreFn : GTree → P → Score) (self : P) (depth : ℕ) (maxi : Bool) (n : ℕ)
    (h : ¬ tl n < th) :
    minimaxT tl th scoreFn self (.node []) depth maxi n =
      (.ok (scoreFn (.node []) self, (-1, -1)), n + 1) := by
  rw [minimaxT.eq_def]
  simp [h]

theorem minimaxT_cons_depth_one {P : Type} (tl : Clock) (th : ℚ)
    (scoreFn : GTree → P → Score) (self : P) (c : Move × GTree)
    (cs : List (Move × GTree)) (maxi : Bool) (n : ℕ) (h : ¬ tl n < th) :
    minimaxT tl th scoreFn self (.node (c :: cs)) 1 maxi n =
      (.ok (if maxi then pyMax ((c :: cs).map (fun x => (scoreFn x.2 self, x.1)))
            else pyMin ((c :: cs).map (fun x => (scoreFn x.2 self, x.1)))),
       n + 1) := by
  rw [minimaxT.eq_def]
  simp [h]

theorem minimaxT_cons {P : Type} (tl : Clock) (th : ℚ)
    (scoreFn : GTree → P → Score) (self : P) (c : Move × GTree)
    (cs : List (Move × GTree)) (depth : ℕ) (maxi : Bool) (n : ℕ)
    (h : ¬ tl n < th) (hd : depth ≠ 1) :
    minimaxT tl th scoreFn self (.node (c :: cs)) depth maxi n =
      (match minimax_recT tl th scoreFn self (c :: cs) depth maxi (n + 1) with
       | (.error e, k) => (.error e, k)
       | (.ok children, k) =>
         (.ok (if maxi then pyMax children else pyMin children), k)) := by
  rw [minimaxT.eq_def]
  simp [h, hd]

theorem minimax_recT_nil {P : Type} (tl : Clock) (th : ℚ)
    (scoreFn : GTree → P → Score) (self : P) (depth : ℕ) (maxi : Bool) (n : ℕ) :
    minimax_recT tl th scoreFn self [] depth maxi n = (.ok [], n) := by
  rw [minimax_recT]

theorem minimax_recT_cons {P : Type} (tl : Clock) (th : ℚ)
    (scoreFn : GTree → P → Score) (self : P) (m : Move) (c : GTree)
    (rest : List (Move × GTree)) (depth : ℕ) (maxi : Bool) (n : ℕ) :
    minimax_recT tl th scoreFn self ((m, c) :: rest) depth maxi n =
      (match minimaxT tl th scoreFn self c (depth - 1) (!maxi) n with
       | (.error e, k) => (.error e, k)
       | (.ok r, k) =>
         match minimax_recT tl th scoreFn self rest depth maxi k with
         | (.error e, k') => (.error e, k')
         | (.ok children, k') => (.ok ((r.1, m) :: children), k')) := by
  rw [minimax_recT]

theorem alphabetaT_depth_zero {P : Type} (tl : Clock) (th : ℚ)
    (scoreFn : GTree → P → Score) (self : P) (g : GTree) (alpha beta : Score)
    (maxi : Bool) (n : ℕ) (h : ¬ tl n < th) :
    alphabetaT tl th scoreFn self g 0 alpha beta maxi n =
      (.ok (scoreFn g self, (-1, -1)), n + 1) := by
  cases g with
  | node cs =>
    rw [alphabetaT.eq_def]
    simp [h]

theorem alphabetaT_nil {P : Type} (tl : Clock) (th : ℚ)
    (scoreFn : GTree → P → Score) (self : P) (depth : ℕ) (alpha beta : Score)
    (maxi : Bool) (n : ℕ) (h : ¬ tl n < th) :
    alphabetaT tl th scoreFn self (.node []) depth alpha beta maxi n =
      (.ok (scoreFn (.node []) self, (-1, -1)), n + 1) := by
  rw [alphabetaT.eq_def]
  by_cases hd : depth = 0 <;> simp [h, hd]

theorem alphabetaT_cons {P : Type} (tl : Clock) (th : ℚ)
    (scoreFn : GTree → P → Score) (self : P) (c : Move × GTree)
    (cs : List (Move × GTree)) (depth : ℕ) (alpha beta : Score) (maxi : Bool)
    (n : ℕ) (h : ¬ tl n < th) (hd : depth ≠ 0) :
    alphabetaT tl th scoreFn self (.node (c :: cs)) depth alpha beta maxi n =
      ab_loopT tl th scoreFn self (c :: cs) depth alpha beta maxi
        (if maxi then Score.negInf else Score.posInf) c.1 (n + 1) := by
  rw [alphabetaT.eq_def]
  simp [h, hd]

theorem ab_loopT_nil {P : Type} (tl : Clock) (th : ℚ)
    (scoreFn : GTree → P → Score) (self : P) (depth : ℕ) (alpha beta : Score)
    (maxi : Bool) (bs : Score) (bm : Move) (n : ℕ) :
    ab_loopT tl th scoreFn self [] depth alpha beta maxi bs bm n =
      (.ok (bs, bm), n) := by
  rw [ab_loopT]

theorem ab_loopT_cons {P : Type} (tl : Clock) (th : ℚ)
    (scoreFn : GTree → P → Score) (self : P) (m : Move) (c : GTree)
    (rest : List (Move × GTree)) (depth : ℕ) (alpha beta : Score) (maxi : Bool)
    (bs : Score) (bm : Move) (n : ℕ) :
    ab_loopT tl th scoreFn self ((m, c) :: rest) depth alpha beta maxi bs bm n =
      (match alphabetaT tl th scoreFn self c (depth - 1) alpha beta (!maxi) n with
       | (.error e, k) => (.error e, k)
       | (.ok r, k) =>
         if (maxi && Score.blt bs r.1) || (!maxi && Score.blt r.1 bs) then
           if __prune__ alpha beta r.1 maxi then (.ok (r.1, m), k)
           else
             ab_loopT tl th scoreFn self rest depth
               (__update_limit__ alpha beta r.1 maxi).1
               (__update_limit__ alpha beta r.1 maxi).2 maxi r.1 m k
         else ab_loopT tl th scoreFn self rest depth alpha beta maxi bs bm k) := by
  rw [ab_loopT]

/-! ## When the clock never crosses the threshold, the timed searches return the
pure results -/

theorem minimax_recT_bridge {P : Type} (tl : Clock) (th : ℚ)
    (scoreFn : GTree → P → Score) (self : P) (cs : List (Move × GTree))
    (ih : ∀ p ∈ cs, ∀ (depth : ℕ) (maxi : Bool) (n : ℕ),
      (minimaxT tl th scoreFn self p.2 depth maxi n).1 =
        .ok (minimax scoreFn self p.2 depth maxi)) :
    ∀ (depth : ℕ) (maxi : Bool) (n : ℕ),
      (minimax_recT tl th scoreFn self cs depth maxi n).1 =
        .ok (minimax_rec scoreFn self cs depth maxi) := by
  induction cs with
  | nil =>
    intro depth maxi n
    rw [minimax_recT_nil, minimax_rec_nil]
  | cons p ps ihl =>
    intro depth maxi n
    obtain ⟨m, c⟩ := p
    rw [minimax_recT_cons, minimax_rec_cons]
    have h1 := ih (m, c) (List.mem_cons_self _ _) (depth - 1) (!maxi) n
    rcases hres : minimaxT tl th scoreFn self c (depth - 1) (!maxi) n with ⟨e, k⟩
    rw [hres] at h1
    dsimp only at h1 ⊢
    subst h1
    have h2 := ihl (fun q hq => ih q (List.mem_cons_of_mem _ hq)) depth maxi k
    rcases hres2 : minimax_recT tl th scoreFn self ps depth maxi k with ⟨e2, k2⟩
    rw [hres2] at h2
    dsimp only at h2
    subst h2
    dsimp only
    rw [hres2]

theorem minimaxT_bridge {P : Type} (tl : Clock) (th : ℚ)
    (scoreFn : GTree → P → Score) (self : P) (hclock : ∀ m, ¬ tl m < th) :
    ∀ (t : GTree) (depth : ℕ) (maxi : Bool) (n : ℕ),
      (minimaxT tl th scoreFn self t depth maxi n).1 =
        .ok (minimax scoreFn self t depth maxi) := by
  intro t
  induction t using GTree.ind with
  | h cs ih =>
    intro depth maxi n
    cases cs with
    | nil =>
      rw [minimaxT_nil tl th scoreFn self depth maxi n (hclock n), minimax_nil]
    | cons c cs' =>
      by_cases hd : depth = 1
      · subst hd
        rw [minimaxT_cons_depth_one tl th scoreFn self c cs' maxi n (hclock n)]
        rw [minimax_cons, minimax_children_eq]
        simp
      · rw [minimaxT_cons tl th scoreFn self c cs' depth maxi n (hclock n) hd]
        rw [minimax_cons, minimax_children_eq]
        have hrec := minimax_recT_bridge tl th scoreFn self (c :: cs') ih depth
          maxi (n + 1)
        rcases hres : minimax_recT tl th scoreFn self (c :: cs') depth maxi
          (n + 1) with ⟨e, k⟩
        rw [hres] at hrec
        dsimp only at hrec ⊢
        subst hrec
        simp [hd]

theorem ab_loopT_bridge {P : Type} (tl : Clock) (th : ℚ)
    (scoreFn : GTree → P → Score) (self : P) (cs : List (Move × GTree))
    (ih : ∀ p ∈ cs, ∀ (depth : ℕ) (alpha beta : Score) (maxi : Bool) (n : ℕ),
      (alphabetaT tl th scoreFn self p.2 depth alpha beta maxi n).1 =
        .ok (alphabeta scoreFn self p.2 depth alpha beta maxi)) :
    ∀ (depth : ℕ) (alpha beta : Score) (maxi : Bool) (bs : Score) (bm : Move)
      (n : ℕ),
      (ab_loopT tl th scoreFn self cs depth alpha beta maxi bs bm n).1 =
        .ok (ab_loop scoreFn self cs depth alpha beta maxi bs bm) := by
  induction cs with
  | nil =>
    intro depth alpha beta maxi bs bm n
    rw [ab_loopT_nil, ab_loop_nil]
  | cons p ps ihl =>
    intro depth alpha beta maxi bs bm n
    obtain ⟨m, c⟩ := p
    rw [ab_loopT_cons, ab_loop_cons]
    have h1 := ih (m, c) (List.mem_cons_self _ _) (depth - 1) alpha beta (!maxi) n
    rcases hres : alphabetaT tl th scoreFn self c (depth - 1) alpha beta (!maxi)
      n with ⟨e, k⟩
    rw [hres] at h1
    dsimp only at h1
    subst h1
    dsimp only
    have ih' := fun q hq => ih q (List.mem_cons_of_mem _ hq)
    split
    · split
      · rfl
      · exact ihl ih' _ _ _ _ _ _ _
    · exact ihl ih' _ _ _ _ _ _ _

theorem alphabetaT_bridge {P : Type} (tl : Clock) (th : ℚ)
    (scoreFn : GTree → P → Score) (self : P) (hclock : ∀ m, ¬ tl m < th) :
    ∀ (t : GTree) (depth : ℕ) (alpha beta : Score) (maxi : Bool) (n : ℕ),
      (alphabetaT tl th scoreFn self t depth alpha beta maxi n).1 =
        .ok (alphabeta scoreFn self t depth alpha beta maxi) := by
  intro t
  induction t using GTree.ind with
  | h cs ih =>
    intro depth alpha beta maxi n
    cases cs with
    | nil =>
      rw [alphabetaT_nil tl th scoreFn self depth alpha beta maxi n (hclock n),
        alphabeta_nil]
    | cons c cs' =>
      by_cases hd : depth = 0
      · subst hd
        rw [alphabetaT_depth_zero tl th scoreFn self _ alpha beta maxi n
          (hclock n), alphabeta_depth_zero]
      · rw [alphabetaT_cons tl th scoreFn self c cs' depth alpha beta maxi n
          (hclock n) hd]
        rw [alphabeta_cons scoreFn self c cs' depth alpha beta maxi hd]
        exact ab_loopT_bridge tl th scoreFn self (c :: cs') ih _ _ _ _ _ _ _

theorem drive_loop_zero (search : ℕ → ℕ → Except Unit (Score × Move) × ℕ)
    (depth n : ℕ) (best : Move) :
    drive_loop search 0 depth n best = best := rfl

theorem drive_loop_succ (search : ℕ → ℕ → Except Unit (Score × Move) × ℕ)
    (fuel depth n : ℕ) (best : Move) :
    drive_loop search (fuel + 1) depth n best =
      (match search depth n with
       | (.ok r, k) => drive_loop search fuel (depth + 1) k r.2
       | (.error _, _) => best) := rfl

/-- C4: every recursive call of both searches first reads the clock and raises
`Timeout` exactly when the remaining time is strictly below the threshold
(conjunct 1: below the threshold, the call errors immediately after its single
clock read; conjunct 2: when no read is ever below the threshold, no call ever
raises and the timed searches return exactly the pure search results, so the
signal is raised only by the threshold test); the signal propagates uncaught
through the recursion and is caught only in `get_move`, which, when every clock
read is below the threshold (so no depth ever completes), returns the pre-seeded
first legal move (conjunct 3). -/
theorem timeout_raised_iff_below_threshold :
    (∀ {P : Type} (tl : Clock) (th : ℚ) (scoreFn : GTree → P → Score) (self : P)
      (g : GTree) (depth : ℕ) (alpha beta : Score) (maxi : Bool) (n : ℕ),
      tl n < th →
      minimaxT tl th scoreFn self g depth maxi n = (.error (), n + 1) ∧
      alphabetaT tl th scoreFn self g depth alpha beta maxi n =
        (.error (), n + 1)) ∧
    (∀ {P : Type} (tl : Clock) (th : ℚ) (scoreFn : GTree → P → Score) (self : P)
      (g : GTree) (depth : ℕ) (alpha beta : Score) (maxi : Bool) (n : ℕ),
      (∀ m, ¬ tl m < th) →
      (minimaxT tl th scoreFn self g depth maxi n).1 =
        .ok (minimax scoreFn self g depth maxi) ∧
      (alphabetaT tl th scoreFn self g depth alpha beta maxi n).1 =
        .ok (alphabeta scoreFn self g depth alpha beta maxi)) ∧
    (∀ {P : Type} (tl : Clock) (th : ℚ) (scoreFn : GTree → P → Score) (self : P)
      (g : GTree) (b : Move) (rest : List Move) (method : String)
      (iterative : Bool) (search_depth fuel n : ℕ),
      (∀ m, tl m < th) → method = "minimax" ∨ method = "alphabeta" →
      get_move tl th scoreFn self g (b :: rest) method iterative search_depth
        fuel n = .ok b) := by
  refine ⟨?_, ?_, ?_⟩
  · intro P tl th scoreFn self g depth alpha beta maxi n h
    exact ⟨minimaxT_timeout tl th scoreFn self g depth maxi n h,
      alphabetaT_timeout tl th scoreFn self g depth alpha beta maxi n h⟩
  · intro P tl th scoreFn self g depth alpha beta maxi n h
    exact ⟨minimaxT_bridge tl th scoreFn self h g depth maxi n,
      alphabetaT_bridge tl th scoreFn self h g depth alpha beta maxi n⟩
  · intro P tl th scoreFn self g b rest method iterative search_depth fuel n
      hclock hm
    have hmm : ∀ (d k : ℕ),
        minimaxT tl th scoreFn self g d true k = (.error (), k + 1) :=
      fun d k => minimaxT_timeout tl th scoreFn self g d true k (hclock k)
    have hab : ∀ (d k : ℕ),
        alphabetaT tl th scoreFn self g d Score.negInf Score.posInf true k =
          (.error (), k + 1) :=
      fun d k => alphabetaT_timeout tl th scoreFn self g d Score.negInf
        Score.posInf true k (hclock k)
    rcases hm with rfl | rfl
    · simp only [get_move]
      norm_num
      cases iterative with
      | false => simp [hmm]
      | true =>
        cases fuel with
        | zero => simp [drive_loop_zero]
        | succ fuel' => simp [drive_loop_succ, hmm]
    · simp only [get_move]
      norm_num
      cases iterative with
      | false => simp [hab]
      | true =>
        cases fuel with
        | zero => simp [drive_loop_zero]
        | succ fuel' => simp [drive_loop_succ, hab]

/-- C4 witness: with a dead clock the searches raise immediately and `get_move`
falls back to the first legal move; with a clock that never crosses the
threshold the timed searches return the pure results. -/
theorem timeout_raised_iff_below_threshold_witness :
    ((0 : ℚ) < 1 ∧
      minimaxT (fun _ => 0) 1 (fun _ (_ : Unit) => Score.fin 1) () (.node []) 1
        true 0 = (.error (), 1)) ∧
    ((∀ m : ℕ, ¬ ((fun _ => (5 : ℚ)) m < 1)) ∧
      (minimaxT (fun _ => (5 : ℚ)) 1 (fun _ (_ : Unit) => Score.fin 1) ()
        (.node []) 1 true 0).1 =
        .ok (minimax (fun _ (_ : Unit) => Score.fin 1) () (.node []) 1 true)) ∧
    ((∀ m : ℕ, (fun _ => (0 : ℚ)) m < 1) ∧
      get_move (fun _ => (0 : ℚ)) 1 (fun _ (_ : Unit) => Score.fin 1) ()
        (.node []) [(3, 4), (5, 6)] ("alphabeta") true 2 7 0 = .ok (3, 4)) :=
  ⟨⟨by norm_num,
     (timeout_raised_iff_below_threshold.1 (fun _ => 0) 1
       (fun _ (_ : Unit) => Score.fin 1) () (.node []) 1 Score.negInf
       Score.posInf true 0 (by norm_num)).1⟩,
   ⟨fun m => by norm_num,
     (timeout_raised_iff_below_threshold.2.1 (fun _ => (5 : ℚ)) 1
       (fun _ (_ : Unit) => Score.fin 1) () (.node []) 1 Score.negInf
       Score.posInf true 0 (fun m => by norm_num)).1⟩,
   ⟨fun m => by norm_num,
     timeout_raised_iff_below_threshold.2.2 (fun _ => (0 : ℚ)) 1
       (fun _ (_ : Unit) => Score.fin 1) () (.node []) (3, 4) [(5, 6)]
       "alphabeta" true 2 7 0 (fun m => by norm_num) (Or.inr rfl)⟩⟩

/-- C5: in iterative mode the driver starts at depth 1 and invokes the selected
search at strictly increasing depths (conjunct 3 and conjunct 2: each completed
depth `d` records the returned move and continues at `d + 1` with the threaded
clock counter); a depth's move is recorded only when that depth completes, and
when the abort signal surfaces mid-iteration the driver returns the move recorded
from the last fully completed depth, never anything from the interrupted depth
(conjunct 1). -/
theorem iterative_deepening_last_completed :
    (∀ (search : ℕ → ℕ → Except Unit (Score × Move) × ℕ) (fuel depth n : ℕ)
      (best : Move), (search depth n).1 = .error () →
      drive_loop search (fuel + 1) depth n best = best) ∧
    (∀ (search : ℕ → ℕ → Except Unit (Score × Move) × ℕ) (fuel depth n : ℕ)
      (best : Move) (r : Score × Move) (k : ℕ), search depth n = (.ok r, k) →
      drive_loop search (fuel + 1) depth n best =
        drive_loop search fuel (depth + 1) k r.2) ∧
    (∀ {P : Type} (tl : Clock) (th : ℚ) (scoreFn : GTree → P → Score) (self : P)
      (g : GTree) (b : Move) (rest : List Move) (search_depth fuel n : ℕ),
      get_move tl th scoreFn self g (b :: rest) ("minimax") true search_depth fuel
          n =
        .ok (drive_loop (fun d k => minimaxT tl th scoreFn self g d true k) fuel
          1 n b) ∧
      get_move tl th scoreFn self g (b :: rest) ("alphabeta") true search_depth
          fuel n =
        .ok (drive_loop (fun d k => alphabetaT tl th scoreFn self g d
          Score.negInf Score.posInf true k) fuel 1 n b)) := by
  refine ⟨?_, ?_, ?_⟩
  · intro search fuel depth n best h
    rw [drive_loop_succ]
    rcases hres : search depth n with ⟨e, k⟩
    rw [hres] at h
    dsimp only at h
    subst h
    rfl
  · intro search fuel depth n best r k h
    rw [drive_loop_succ, h]
  · intro P tl th scoreFn self g b rest search_depth fuel n
    constructor
    · simp only [get_move]
      norm_num
    · simp only [get_move]
      rw [if_neg (by decide)]
      simp

/-- C5 witness: a search that always aborts keeps the previous best move; a
search that completes records its move and is re-invoked at the next depth. -/
theorem iterative_deepening_last_completed_witness :
    (((fun (_ n : ℕ) => ((.error (), n + 1) :
        Except Unit (Score × Move) × ℕ)) 1 0).1 = .error () ∧
      drive_loop (fun _ n => (.error (), n + 1)) (2 + 1) 1 0 (9, 9) = (9, 9)) ∧
    ((fun (_ n : ℕ) => ((.ok (Score.fin 1, (2, 2)), n + 1) :
        Except Unit (Score × Move) × ℕ)) 1 0 = (.ok (Score.fin 1, (2, 2)), 1) ∧
      drive_loop (fun _ n => (.ok (Score.fin 1, (2, 2)), n + 1)) (2 + 1) 1 0
          (9, 9) =
        drive_loop (fun _ n => (.ok (Score.fin 1, (2, 2)), n + 1)) 2 2 1
          (2, 2)) :=
  ⟨⟨rfl, iterative_deepening_last_completed.1
      (fun _ n => (.error (), n + 1)) 2 1 0 (9, 9) rfl⟩,
   ⟨rfl, iterative_deepening_last_completed.2.1
      (fun _ n => (.ok (Score.fin 1, (2, 2)), n + 1)) 2 1 0 (9, 9)
      (Score.fin 1, (2, 2)) 1 rfl⟩⟩

/-- C8: `get_move` with an empty legal-move list returns the sentinel `(-1, -1)`
immediately: the result holds for every clock, threshold, score function, board,
method string (even an unsupported one — the check precedes method dispatch),
mode, depth and fuel, so neither search method nor the heuristic evaluator is
ever consulted. -/
theorem empty_moves_returns_sentinel {P : Type} (tl : Clock) (th : ℚ)
    (scoreFn : GTree → P → Score) (self : P) (g : GTree) (method : String)
    (iterative : Bool) (search_depth fuel n : ℕ) :
    get_move tl th scoreFn self g [] method iterative search_depth fuel n =
      .ok (-1, -1) := rfl

/-- C6 counterexample: a concrete sweep (grid `[0]`, result `[50]`, Python `str`
modelled by `toString`) for which the destination file, when supplied, receives
the tab-separated result line, but for which, when the destination is omitted,
stdout receives only the timestamps and the agent name — the result line is
written nowhere, refuting the claim that the same lines go to standard output. -/
theorem sweep_output_counterexample :
    result_lines toString [0] [50] = ["0\t50"] ∧
    (main_writes toString ("t0") ("t1") (some ("out.txt")) [0] [50]).2 = ["0\t50"] ∧
    (main_writes toString ("t0") ("t1") none [0] [50]).2 = [] ∧
    (main_writes toString ("t0") ("t1") none [0] [50]).1 = ["t0", "Alpha0", "t1"] ∧
    "0\t50" ∉ (main_writes toString ("t0") ("t1") none [0] [50]).1 := by
  refine ⟨by decide, by decide, by decide, by decide, by decide⟩

/-- C6 (amended): when a destination path is supplied the comparator writes one
`<α>\t<win_percentage>` line per swept grid value to that destination,
tab-separated, newline-terminated, in grid order; when the destination is
omitted the result lines are not written anywhere — standard output receives
only the timestamps and the per-agent names.  (The destination is `argv[1]` when
present, none otherwise.) -/
theorem sweep_output_amended :
    (∀ (fmt : ℚ → String) (t0 t1 fn : String) (alphas results : List ℚ),
      (main_writes fmt t0 t1 (some fn) alphas results).2 =
        result_lines fmt alphas results ∧
      (main_writes fmt t0 t1 none alphas results).2 = [] ∧
      (main_writes fmt t0 t1 none alphas results).1 =
        t0 :: alphas.map (fun a => "Alpha" ++ fmt a) ++ [t1]) ∧
    (∀ (fmt : ℚ → String) (alphas results : List ℚ),
      (result_lines fmt alphas results).length = alphas.length) ∧
    (∀ (fmt : ℚ → String) (alphas results : List ℚ) (i : ℕ),
      i < alphas.length →
      (result_lines fmt alphas results).getD i ("") =
        fmt (alphas.getD i 0) ++ "\t" ++ fmt (results.getD i 0)) ∧
    (∀ (a0 fn : String) (rest : List String),
      main_filename (a0 :: fn :: rest) = some fn) ∧
    (∀ (a0 : String), main_filename [a0] = none ∧ main_filename [] = none) := by
  refine ⟨?_, ?_, ?_, ?_, ?_⟩
  · intro fmt t0 t1 fn alphas results
    exact ⟨rfl, rfl, rfl⟩
  · intro fmt alphas results
    simp [result_lines]
  · intro fmt alphas results i hi
    have hlen : (result_lines fmt alphas results).length = alphas.length := by
      simp [result_lines]
    rw [List.getD_eq_getElem _ _ (by rw [hlen]; exact hi)]
    simp [result_lines, hi]
  · intro a0 fn rest
    simp [main_filename]
  · intro a0
    exact ⟨rfl, rfl⟩

/-- C6 (amended) witness: the concrete sweep `alphas = [0], results = [50]`:
supplied destination gets the single tab-separated line, omitted destination
leaves stdout without it, and the `argv` dispatch picks the second entry. -/
theorem sweep_output_amended_witness :
    ((main_writes toString ("t0") ("t1") (some ("out.txt")) [0] [50]).2 =
        result_lines toString [0] [50] ∧
      (main_writes toString ("t0") ("t1") none [0] [50]).2 = [] ∧
      (main_writes toString ("t0") ("t1") none [0] [50]).1 =
        "t0" :: ([0] : List ℚ).map (fun a => "Alpha" ++ toString a) ++ ["t1"]) ∧
    ((0 : ℕ) < ([0] : List ℚ).length ∧
      (result_lines toString [0] [50]).getD 0 ("") =
        toString (([0] : List ℚ).getD 0 0) ++ "\t" ++
          toString (([50] : List ℚ).getD 0 0)) ∧
    main_filename ["heuristic_search.py", "out.txt"] = some ("out.txt") :=
  ⟨sweep_output_amended.1 toString ("t0") ("t1") ("out.txt") [0] [50],
   ⟨by decide, sweep_output_amended.2.2.1 toString [0] [50] 0 (by decide)⟩,
   sweep_output_amended.2.2.2.1 ("heuristic_search.py") ("out.txt") []⟩

/-- C9: the evaluator family member `moves_combined(0.77)` coincides with the
source's `custom_score`: it returns `-inf` when the perspective player has lost,
`+inf` when it has won, and otherwise `0.77` times the perspective's legal-move
count plus `0.23` (that is, `1 - 0.77`) times the opponent's; in particular, on
a non-terminal board where the mover has 5 legal moves and the opponent 2 it
returns `4.31`. -/
theorem moves_combined_instantiation :
    (∀ {P : Type} (game : ScoreBoard P) (player : P),
      moves_combined 0.77 game player = custom_score game player) ∧
    (∀ {P : Type} (game : ScoreBoard P) (player : P),
      game.is_loser player = true →
      moves_combined 0.77 game player = .negInf) ∧
    (∀ {P : Type} (game : ScoreBoard P) (player : P),
      game.is_loser player = false → game.is_winner player = true →
      moves_combined 0.77 game player = .posInf) ∧
    (∀ {P : Type} (game : ScoreBoard P) (player : P),
      game.is_loser player = false → game.is_winner player = false →
      moves_combined 0.77 game player =
        .fin ((0.77 : ℚ) * (game.get_legal_moves player).length +
          (0.23 : ℚ) * (game.get_legal_moves
            (game.get_opponent player)).length)) ∧
    (∀ {P : Type} (game : ScoreBoard P) (player : P),
      game.is_loser player = false → game.is_winner player = false →
      (game.get_legal_moves player).length = 5 →
      (game.get_legal_moves (game.get_opponent player)).length = 2 →
      moves_combined 0.77 game player = .fin 4.31) := by
  have key : ∀ {P : Type} (game : ScoreBoard P) (player : P),
      game.is_loser player = false → game.is_winner player = false →
      moves_combined 0.77 game player =
        .fin ((0.77 : ℚ) * (game.get_legal_moves player).length +
          (0.23 : ℚ) * (game.get_legal_moves
            (game.get_opponent player)).length) := by
    intro P game player h1 h2
    rw [moves_combined]
    rw [h1, h2]
    simp only [if_false, Bool.false_eq_true]
    congr 1
    norm_num
  refine ⟨?_, ?_, ?_, key, ?_⟩
  · intro P game player
    rw [moves_combined, custom_score]
    cases h1 : game.is_loser player
    · cases h2 : game.is_winner player
      · simp only [if_false, Bool.false_eq_true]
        congr 1
        norm_num
      · simp
    · simp
  · intro P game player h1
    rw [moves_combined, h1]
    simp
  · intro P game player h1 h2
    rw [moves_combined, h1, h2]
    simp
  · intro P game player h1 h2 h5 h6
    rw [key game player h1 h2, h5, h6]
    norm_num

/-- C9 witness: a concrete non-terminal board where the mover has 5 legal moves
and the opponent 2; `moves_combined 0.77` agrees with `custom_score` and returns
`4.31`. -/
theorem moves_combined_instantiation_witness :
    (moves_combined 0.77
        (⟨fun _ => false, fun _ => false,
          fun p => if p then [(0, 0), (0, 1), (0, 2), (0, 3), (0, 4)]
            else [(1, 0), (1, 1)], fun p => !p⟩ : ScoreBoard Bool) true =
      custom_score
        (⟨fun _ => false, fun _ => false,
          fun p => if p then [(0, 0), (0, 1), (0, 2), (0, 3), (0, 4)]
            else [(1, 0), (1, 1)], fun p => !p⟩ : ScoreBoard Bool) true) ∧
    ((⟨fun _ => false, fun _ => false,
        fun p => if p then [(0, 0), (0, 1), (0, 2), (0, 3), (0, 4)]
          else [(1, 0), (1, 1)], fun p => !p⟩ : ScoreBoard Bool).is_loser true =
      false) ∧
    (((⟨fun _ => false, fun _ => false,
        fun p => if p then [(0, 0), (0, 1), (0, 2), (0, 3), (0, 4)]
          else [(1, 0), (1, 1)], fun p => !p⟩ :
        ScoreBoard Bool).get_legal_moves true).length = 5) ∧
    moves_combined 0.77
        (⟨fun _ => false, fun _ => false,
          fun p => if p then [(0, 0), (0, 1), (0, 2), (0, 3), (0, 4)]
            else [(1, 0), (1, 1)], fun p => !p⟩ : ScoreBoard Bool) true =
      .fin 4.31 :=
  ⟨moves_combined_instantiation.1 _ true, rfl, rfl,
   moves_combined_instantiation.2.2.2.2 _ true rfl rfl rfl rfl⟩

end AIndIsolation
